import Mathlib

/-!
Verification of the extension-manifest / README image linter
(`src/extensions/extension-editing/src/extensionLinter.ts`).

The TypeScript source is shallowly embedded below.  Pure helpers
(`endsWith`, `addDiagnostics`, `readPackageJsonInfo`, the scans) are
translated directly; external collaborators that are not part of the
repository (the `jsonc-parser` syntax-tree builder, `vscode.Uri.parse`,
the markdown-it and parse5 parsers, the offset/position conversion of
the editor host) are either modelled from the specification or taken as
oracle parameters, as noted on each definition.
-/

/-! ## Definitions -/

/-- First index `i ≥ start` at which `pat` occurs in `l`
(JavaScript `String.prototype.indexOf(pat, start)`, `none` for `-1`). -/
def indexOfFrom (l pat : List Char) (start : Nat) : Option Nat :=
  (List.range (l.length + 1)).find? (fun i => decide (start ≤ i) && pat.isPrefixOf (l.drop i))

/-- The source's `endsWith` helper (lines 281-289), translated branch by
branch: `diff > 0` uses `indexOf(needle, diff) === diff`, `diff === 0`
compares the strings, otherwise `false`. -/
def endsWith (haystack needle : String) : Bool :=
  if needle.length < haystack.length then
    indexOfFrom haystack.data needle.data (haystack.length - needle.length)
      == some (haystack.length - needle.length)
  else if haystack.length == needle.length then
    haystack == needle
  else
    false

/-- ASCII lowercasing (JavaScript `String.prototype.toLowerCase` on the
ASCII strings the linter compares), computed over the character list. -/
def toLowerStr (s : String) : String :=
  String.mk (s.data.map Char.toLower)

structure ParsedUri where
  scheme : String
  authority : String
  path : String
deriving DecidableEq, Repr

/-- Modelled from the spec: strict URL parsing into scheme / authority /
path (`vscode.Uri.parse`, an external collaborator that is not under
`src/`).  Follows the spec's rule that the scheme is the non-empty run
of characters before the first `:` (none of `:/?#` may occur in it and
the `:` must precede any `/?#`), the authority follows a literal `//`,
and the path extends to the first `?` or `#`; a string without such a
scheme degrades to an empty scheme and authority. -/
def uriParse (s : String) : ParsedUri :=
  let cs := s.data
  let sc := cs.takeWhile (fun c => !(c == ':' || c == '/' || c == '?' || c == '#'))
  let schemeMatched := !sc.isEmpty && (cs.get? sc.length == some ':')
  let scheme := if schemeMatched then sc else []
  let rest := if schemeMatched then cs.drop (sc.length + 1) else cs
  match rest with
  | '/' :: '/' :: r =>
    let auth := r.takeWhile (fun c => !(c == '/' || c == '?' || c == '#'))
    let p := (r.drop auth.length).takeWhile (fun c => !(c == '?' || c == '#'))
    ⟨String.mk scheme, String.mk auth, String.mk p⟩
  | _ => ⟨String.mk scheme, "", String.mk (rest.takeWhile (fun c => !(c == '?' || c == '#')))⟩

/-- The four diagnostic messages of the linter (lines 20-23), as kinds. -/
inductive MessageKind where
  | httpsRequired
  | svgsNotValid
  | dataUrlsNotValid
  | relativeUrlRequiresHttpsRepository
deriving DecidableEq, Repr

/-- A published diagnostic: its half-open offset range in the scanned
text plus the message kind.  (The severity is always `Warning` in the
source and is omitted; offset-to-line/column conversion is the host's
`positionAt`, an excluded collaborator, so ranges stay as offsets.) -/
structure Issue where
  rangeStart : Nat
  rangeEnd : Nat
  kind : MessageKind
deriving DecidableEq, Repr

/-- The `Context` enum of the source (lines 25-29). -/
inductive Context where
  | icon
  | badge
  | markdown
deriving DecidableEq, Repr

/-- Structure `PackageJsonInfo` (lines 37-40). -/
structure PackageJsonInfo where
  isExtension : Bool
  hasHttpsRepository : Bool
deriving DecidableEq, Repr

/-- The `scheme` local of `addDiagnostics` (line 247):
`Uri.parse(src).scheme.toLowerCase()`. -/
def schemeLower (src : String) : String :=
  toLowerStr (uriParse src).scheme

/-- Source `addDiagnostics` (lines 245-268): the pure URL validator.  `allowed`
is the externally configured `allowedBadgeProviders` list (line 16,
already lowercased there).  The four rules fire independently in source
order; each pushes one diagnostic over the `[b, e)` range it was given.
The `ctx` parameter is accepted, as in the source, but unused there. -/
def addDiagnostics (allowed : List String) (b e : Nat) (src : String)
    (_ctx : Context) (info : PackageJsonInfo) : List Issue :=
  (if schemeLower src != "" && schemeLower src != "https" && schemeLower src != "data" then
    [⟨b, e, MessageKind.httpsRequired⟩] else [])
  ++ (if schemeLower src == "data" then [⟨b, e, MessageKind.dataUrlsNotValid⟩] else [])
  ++ (if schemeLower src == "" && !info.hasHttpsRepository then
    [⟨b, e, MessageKind.relativeUrlRequiresHttpsRepository⟩] else [])
  ++ (if endsWith (toLowerStr (uriParse src).path) ".svg"
        && !(allowed.contains (toLowerStr (uriParse src).authority)) then
    [⟨b, e, MessageKind.svgsNotValid⟩] else [])

/-- The kinds emitted by the validator for a URL. -/
def issueKinds (allowed : List String) (src : String) (ctx : Context)
    (info : PackageJsonInfo) : List MessageKind :=
  (addDiagnostics allowed 0 0 src ctx info).map Issue.kind

inductive JType where
  | obj
  | arr
  | str
  | num
  | boolean
  | nul
  | prop
deriving DecidableEq, Repr

/-- A `jsonc-parser` `Node`: node type, absolute `offset` into the text,
`length` in characters, the string `value` (non-empty only for string
nodes), and child nodes (for an object: its properties; for a property:
`[key, value]`; for an array: its elements). -/
inductive JNode where
  | mk (typ : JType) (offset : Nat) (length : Nat) (value : String) (children : List JNode)
deriving Repr

def JNode.typ : JNode → JType
  | .mk t _ _ _ _ => t

def JNode.offset : JNode → Nat
  | .mk _ o _ _ _ => o

def JNode.length : JNode → Nat
  | .mk _ _ l _ _ => l

def JNode.value : JNode → String
  | .mk _ _ _ v _ => v

def JNode.children : JNode → List JNode
  | .mk _ _ _ _ c => c

def isWsChar (c : Char) : Bool :=
  c == ' ' || c == '\t' || c == '\n' || c == '\r'

/-- Number of leading whitespace characters. -/
def wsCount : List Char → Nat
  | [] => 0
  | c :: cs => if isWsChar c then wsCount cs + 1 else 0

/-- Index of the first non-whitespace character at or after `i`. -/
def skipWs (l : List Char) (i : Nat) : Nat :=
  i + wsCount (l.drop i)

/-- Scan a string body (the characters after an opening quote) up to
the closing quote: returns the content and the number of characters
consumed including the closing quote.  Fails on an unterminated
string. -/
def scanString : List Char → Option (List Char × Nat)
  | [] => none
  | c :: cs =>
    if c == '"' then some ([], 1)
    else (scanString cs).map (fun p => (c :: p.1, p.2 + 1))

/-- Parse a JSON string literal starting at index `i` (which must hold
the opening quote).  The resulting node spans both quotes, its `value`
is the unquoted content. -/
def parseJString (l : List Char) (i : Nat) : Option (JNode × Nat) :=
  if l.get? i = some '"' then
    match scanString (l.drop (i + 1)) with
    | some (cnt, n) => some (⟨JType.str, i, n + 1, String.mk cnt, []⟩, i + 1 + n)
    | none => none
  else none

def isLitChar (c : Char) : Bool :=
  !(isWsChar c || c == ',' || c == '}' || c == ']' || c == ':'
    || c == '"' || c == '{' || c == '[')

/-- Parse a scalar literal (`true`, `false`, `null`, or a number). -/
def parseScalar (l : List Char) (i : Nat) : Option (JNode × Nat) :=
  if ((l.drop i).takeWhile isLitChar).isEmpty then none
  else
    some (⟨(if (l.drop i).takeWhile isLitChar = "true".data
              ∨ (l.drop i).takeWhile isLitChar = "false".data then JType.boolean
            else if (l.drop i).takeWhile isLitChar = "null".data then JType.nul
            else JType.num),
           i, ((l.drop i).takeWhile isLitChar).length, "", []⟩,
          i + ((l.drop i).takeWhile isLitChar).length)

mutual

/-- Parse one JSON value starting at index `i` (leading whitespace is
skipped); returns the node and the index just past it. -/
def parseVal : Nat → List Char → Nat → Option (JNode × Nat)
  | 0, _, _ => none
  | fuel + 1, l, i0 =>
    match l.get? (skipWs l i0) with
    | none => none
    | some c =>
      if c = '{' then
        match parseMembers fuel l (skipWs l i0 + 1) with
        | some (props, j) => some (⟨JType.obj, skipWs l i0, j - skipWs l i0, "", props⟩, j)
        | none => none
      else if c = '[' then
        match parseElems fuel l (skipWs l i0 + 1) with
        | some (elems, j) => some (⟨JType.arr, skipWs l i0, j - skipWs l i0, "", elems⟩, j)
        | none => none
      else if c = '"' then parseJString l (skipWs l i0)
      else parseScalar l (skipWs l i0)

/-- Parse the members of an object, starting just after `{` or after a
separating comma; returns the property nodes and the index just past
the closing `}`. -/
def parseMembers : Nat → List Char → Nat → Option (List JNode × Nat)
  | 0, _, _ => none
  | fuel + 1, l, i =>
    if l.get? (skipWs l i) = some '}' then some ([], skipWs l i + 1)
    else
      match parseJString l (skipWs l i) with
      | none => none
      | some (key, k0) =>
        if l.get? (skipWs l k0) = some ':' then
          match parseVal fuel l (skipWs l k0 + 1) with
          | none => none
          | some (v, m) =>
            if l.get? (skipWs l m) = some ',' then
              match parseMembers fuel l (skipWs l m + 1) with
              | some (props, j2) =>
                some (⟨JType.prop, key.offset, m - key.offset, "", [key, v]⟩ :: props, j2)
              | none => none
            else if l.get? (skipWs l m) = some '}' then
              some ([⟨JType.prop, key.offset, m - key.offset, "", [key, v]⟩], skipWs l m + 1)
            else none
        else none

/-- Parse the elements of an array, starting just after `[` or after a
separating comma; returns the element nodes and the index just past the
closing `]`. -/
def parseElems : Nat → List Char → Nat → Option (List JNode × Nat)
  | 0, _, _ => none
  | fuel + 1, l, i =>
    if l.get? (skipWs l i) = some ']' then some ([], skipWs l i + 1)
    else
      match parseVal fuel l i with
      | none => none
      | some (v, m) =>
        if l.get? (skipWs l m) = some ',' then
          match parseElems fuel l (skipWs l m + 1) with
          | some (elems, j2) => some (v :: elems, j2)
          | none => none
        else if l.get? (skipWs l m) = some ']' then some ([v], skipWs l m + 1)
        else none

end

/-- Modelled from the spec: `jsonc-parser`'s `parseTree` (external, not
under `src/`), as a strict parse of the whole text; a malformed
manifest yields `none`, the spec's parse-failure path that produces
zero findings. -/
def parseTree (text : String) : Option JNode :=
  match parseVal (text.length + 1) text.data 0 with
  | some (n, j) => if skipWs text.data j = text.length then some n else none
  | none => none

/-- Find the property of an object's `children` whose key is `seg`. -/
def findProp (children : List JNode) (seg : String) : Option JNode :=
  children.find? (fun p =>
    p.typ == JType.prop && ((p.children.head?.map JNode.value).getD "" == seg))

/-- Modelled from the spec: `jsonc-parser`'s `findNodeAtLocation`
(external, not under `src/`) restricted to the property-name paths the
linter uses: each segment selects the value of the matching property of
an object node. -/
def findNodeAtLocation (n : JNode) : List String → Option JNode
  | [] => some n
  | seg :: rest =>
    if n.typ = JType.obj then
      match findProp n.children seg with
      | some p =>
        match p.children.get? 1 with
        | some v => findNodeAtLocation v rest
        | none => none
      | none => none
    else none

/-- Source `readPackageJsonInfo` (lines 215-230), its pure result: whether the
tree has a string-typed `engines.vscode` node, and whether it has a
string-typed, non-empty `repository.url` whose parsed scheme lowercases
to `https`.  (The folder-cache update and README re-queueing side
effects of the source function belong to the orchestration.) -/
def readPackageJsonInfo (tree : Option JNode) : PackageJsonInfo :=
  { isExtension :=
      match tree.bind (fun t => findNodeAtLocation t ["engines", "vscode"]) with
      | some engine => engine.typ == JType.str
      | none => false,
    hasHttpsRepository :=
      match tree.bind (fun t => findNodeAtLocation t ["repository", "url"]) with
      | some repo =>
        repo.typ == JType.str && repo.value != "" && schemeLower repo.value == "https"
      | none => false }

/-- The `lintPackageJson` per-document scan (lines 101-120): parse the
manifest, read its info, and if it is an extension manifest validate
the `icon` string node and every `badges[].url` string node, each over
the quote-trimmed range `[offset + 1, offset + length - 1)`. -/
def scanManifest (allowed : List String) (text : String) : List Issue :=
  if (readPackageJsonInfo (parseTree text)).isExtension then
    (match (parseTree text).bind (fun t => findNodeAtLocation t ["icon"]) with
     | some icon =>
       if icon.typ = JType.str then
         addDiagnostics allowed (icon.offset + 1) (icon.offset + icon.length - 1)
           icon.value Context.icon (readPackageJsonInfo (parseTree text))
       else []
     | none => [])
    ++ (match (parseTree text).bind (fun t => findNodeAtLocation t ["badges"]) with
     | some badges =>
       if badges.typ = JType.arr then
         ((badges.children.filterMap (fun child => findNodeAtLocation child ["url"])).filter
             (fun url => url.typ == JType.str)).flatMap
           (fun url => addDiagnostics allowed (url.offset + 1) (url.offset + url.length - 1)
             url.value Context.badge (readPackageJsonInfo (parseTree text)))
       else []
     | none => [])
  else []

/-- The manifest string nodes the scan reports: the `icon` string node
and the string-typed `badges[].url` nodes of an extension manifest. -/
def manifestReportedNodes (text : String) : List JNode :=
  match parseTree text with
  | none => []
  | some t =>
    if (readPackageJsonInfo (some t)).isExtension then
      (match findNodeAtLocation t ["icon"] with
       | some icon => if icon.typ = JType.str then [icon] else []
       | none => [])
      ++ (match findNodeAtLocation t ["badges"] with
       | some badges =>
         if badges.typ = JType.arr then
           (badges.children.filterMap (fun child => findNodeAtLocation child ["url"])).filter
             (fun url => url.typ == JType.str)
         else []
       | none => [])
    else []

/-- The C1 round-trip manifest. -/
def manifestC1 : String :=
  "\x7b\"engines\":\x7b\"vscode\":\"^1.0.0\"\x7d,\"icon\":\"http://x.com/a.png\"\x7d"

/-- A node (recursively) lies within a text of length `len`, and string
nodes span at least their two quotes. -/
inductive NodeWF (len : Nat) : JNode → Prop where
  | mk : ∀ n : JNode, n.offset + n.length ≤ len →
      (n.typ = JType.str → 2 ≤ n.length) →
      (∀ c ∈ n.children, NodeWF len c) → NodeWF len n

/-- A markdown-it token as the mapper consumes it (the markdown-it
parser itself is an external collaborator; its tokens are inputs here):
a type tag, a content string, the `src` attribute when present
(`attrGet` returns null, modelled `none`, when absent), the optional
source line range `map`, and child tokens. -/
inductive Token where
  | mk (ttype : String) (content : String) (src : Option String)
      (lineMap : Option (Nat × Nat)) (children : List Token)
deriving Repr

def Token.ttype : Token → String
  | .mk t _ _ _ _ => t

def Token.content : Token → String
  | .mk _ c _ _ _ => c

def Token.src : Token → Option String
  | .mk _ _ s _ _ => s

def Token.lineMap : Token → Option (Nat × Nat)
  | .mk _ _ _ m _ => m

def Token.children : Token → List Token
  | .mk _ _ _ _ cs => cs

/-- Structure `TokenAndPosition` (lines 31-35): a token with its recovered span
`[spanStart, spanEnd)` in the source text. -/
structure TokenAndPosition where
  token : Token
  spanStart : Nat
  spanEnd : Nat
deriving Repr

/-- The derived content of a token without a line range (line 155):
`token.type === 'image' && token.attrGet('src') || token.content`. -/
def derivedContent (t : Token) : String :=
  if t.ttype == "image" then
    match t.src with
    | some s => if s != "" then s else t.content
    | none => t.content
  else t.content

/-- The forward content search of the mapper (lines 156-169): find the
derived content at or after the cursor `b`; succeed only when the
occurrence ends within the inherited bound `e`. -/
def contentSpan (text : List Char) (t : Token) (b e : Nat) : Option (Nat × Nat) :=
  if derivedContent t != "" then
    match indexOfFrom text (derivedContent t).data b with
    | some i =>
      if i + (derivedContent t).length ≤ e then
        some (i, i + (derivedContent t).length)
      else none
    | none => none
  else none

/-- One level of `toTokensAndPositions` (lines 145-175): assign each
token a span, threading the forward-only cursor.  A token with a line
range gets the line-converted span (`ls` is the host's line-start
offset service `offsetAt(new Position(line, 0))`) and moves the cursor;
a token whose content is found within bounds gets that occurrence and
moves the cursor; otherwise the token collapses to the zero-width span
at the cursor, which does not move. -/
def levelSpans (ls : Nat → Nat) (text : List Char) :
    List Token → Nat → Nat → List TokenAndPosition
  | [], _, _ => []
  | t :: ts, b, e =>
    match t.lineMap with
    | some (m0, m1) => ⟨t, ls m0, ls m1⟩ :: levelSpans ls text ts (ls m1) e
    | none =>
      match contentSpan text t b e with
      | some (s0, s1) => ⟨t, s0, s1⟩ :: levelSpans ls text ts s1 e
      | none => ⟨t, b, b⟩ :: levelSpans ls text ts b e

def tokensWeight : List Token → Nat
  | [] => 0
  | t :: ts => (match t with | .mk _ _ _ _ cs => 1 + tokensWeight cs) + tokensWeight ts

/-- Fuelled recursion of `toTokensAndPositions` (lines 144-180): map the
level, then recurse into every token that has children using that
token's resolved span as the child bounds, concatenating child results
after the level's. -/
def toTAPFuel (ls : Nat → Nat) (text : List Char) :
    Nat → List Token → Nat → Nat → List TokenAndPosition
  | 0, _, _, _ => []
  | fuel + 1, tokens, b, e =>
    levelSpans ls text tokens b e
    ++ ((levelSpans ls text tokens b e).map (fun tnp =>
        if tnp.token.children.isEmpty then []
        else toTAPFuel ls text fuel tnp.token.children tnp.spanStart tnp.spanEnd)).flatten

/-- Function `toTokensAndPositions` (lines 144-180), entered at cursor `0` with
bound `text.length`; the fuel strictly exceeds the nesting depth, so it
never runs out. -/
def toTokensAndPositions (ls : Nat → Nat) (text : String) (tokens : List Token) :
    List TokenAndPosition :=
  toTAPFuel ls text.data (tokensWeight tokens + 1) tokens 0 text.length

/-- A text document as the linter sees it: identity, language id, path,
closed flag, text, the folder's cached `PackageJsonInfo` (if any), the
folder's manifest file content (`none` when the file is missing or
unreadable, the `loadPackageJson` failure path of lines 232-239), and
the markdown-it token list of its text. -/
structure Doc where
  id : Nat
  languageId : String
  path : String
  closed : Bool
  text : String
  cache : Option PackageJsonInfo
  manifest : Option String
  tokens : List Token

/-- The info used by `lintReadme` for a document (lines 131-136): the
folder cache if present, else load and parse the folder's manifest
(`loadPackageJson`, whose failure yields no tree). -/
def readmeInfo (d : Doc) : PackageJsonInfo :=
  match d.cache with
  | some info => info
  | none => readPackageJsonInfo (d.manifest.bind (fun mtext => parseTree mtext))

/-- The `lintReadme` per-document scan (lines 137-211).  `himgs` is the
parse5 SAX oracle (an external collaborator): for a text token's raw
content it yields, for each `img` start tag carrying a `src` attribute,
that attribute's value and the tag's start offset within the content.
A non-extension folder yields no issues; otherwise markdown image
tokens and raw HTML `img` tags are re-located in the source text by
forward search from their token's span start and validated. -/
def lintReadmeScanDoc (ls : Nat → Nat) (allowed : List String)
    (himgs : String → List (String × Nat)) (d : Doc) : List Issue :=
  if (readmeInfo d).isExtension = false then []
  else
    ((toTokensAndPositions ls d.text d.tokens).filter
        (fun tnp => tnp.token.ttype == "image" && (tnp.token.src.getD "") != "")).flatMap
      (fun inp =>
        match indexOfFrom d.text.data (inp.token.src.getD "").data inp.spanStart with
        | some b =>
          if b < inp.spanEnd then
            addDiagnostics allowed b (b + (inp.token.src.getD "").length)
              (inp.token.src.getD "") Context.markdown (readmeInfo d)
          else []
        | none => [])
    ++ ((toTokensAndPositions ls d.text d.tokens).filter
        (fun tnp => tnp.token.ttype == "text" && tnp.token.content != "")).flatMap
      (fun tnp =>
        (himgs tnp.token.content).flatMap
          (fun pr =>
            if pr.1 != "" then
              match indexOfFrom d.text.data pr.1.data (tnp.spanStart + pr.2) with
              | some b =>
                if b < tnp.spanEnd then
                  addDiagnostics allowed b (b + pr.1.length) pr.1 Context.markdown (readmeInfo d)
                else []
              | none => []
            else []))

/-- The linter's orchestration state: the two pending sets (JavaScript
`Set`s iterate in insertion order; documents are compared by identity,
modelled by `id`) and the published issue list per document identity
(the diagnostics collection). -/
structure LinterState where
  packageJsonQ : List Doc
  readmeQ : List Doc
  published : List (Nat × List Issue)

/-- JavaScript `Set.add`: a document already present keeps its position; a new one
is appended. -/
def qadd (q : List Doc) (d : Doc) : List Doc :=
  if q.any (fun x => x.id == d.id) then q else q ++ [d]

/-- Source `queueReadme` (lines 71-77): markdown documents whose lowercased
path ends in `/readme.md` or `/changelog.md` enter the README queue. -/
def queueReadme (s : LinterState) (d : Doc) : LinterState :=
  if d.languageId == "markdown"
      && (endsWith (toLowerStr d.path) "/readme.md"
          || endsWith (toLowerStr d.path) "/changelog.md") then
    { s with readmeQ := qadd s.readmeQ d }
  else s

/-- Source `queue` (lines 62-69): json documents whose path (case-sensitive)
ends in `/package.json` enter the manifest queue; then the README check
runs.  (The debounce-timer restart that accompanies an enqueue is real
time and is not modelled.) -/
def queue (s : LinterState) (d : Doc) : LinterState :=
  queueReadme
    (if d.languageId == "json" && endsWith d.path "/package.json" then
      { s with packageJsonQ := qadd s.packageJsonQ d }
    else s) d

/-- Source `clear` (lines 270-273): on close, delete the document's published
issues and remove it from the manifest queue.  The source does not
remove it from the README queue. -/
def clear (s : LinterState) (d : Doc) : LinterState :=
  { s with published := s.published.filter (fun p => p.1 != d.id),
           packageJsonQ := s.packageJsonQ.filter (fun x => x.id != d.id) }

/-- The source `lintPackageJson` as a drain (lines 94-122): `forEach` over a
snapshot of the manifest queue, deleting every document; the callback
of a closed document returns early, skipping only that document; every
open document is scanned and its issue list published (also when empty).
The result is the list of `(document, issues)` publications, in order;
the queue is always left empty. -/
def lintPackageJsonDrain (allowed : List String) : List Doc → List (Nat × List Issue)
  | [] => []
  | d :: ds =>
    if d.closed then lintPackageJsonDrain allowed ds
    else (d.id, scanManifest allowed d.text) :: lintPackageJsonDrain allowed ds

/-- The source `lintReadme` as a drain (lines 124-212): a `for … of` loop over a
snapshot of the README queue, deleting each document before processing
it.  The body uses `return` — not `continue` — both for a closed
document (line 128) and for a non-extension folder after publishing the
empty list (line 139), so either aborts the whole drain: the documents
after it stay queued and unprocessed.  Returns the publications made
and the documents still queued afterwards. -/
def lintReadmeDrain (ls : Nat → Nat) (allowed : List String)
    (himgs : String → List (String × Nat)) :
    List Doc → List (Nat × List Issue) × List Doc
  | [] => ([], [])
  | d :: ds =>
    if d.closed then ([], ds)
    else if (readmeInfo d).isExtension = false then ([(d.id, [])], ds)
    else
      ((d.id, lintReadmeScanDoc ls allowed himgs d) ::
          (lintReadmeDrain ls allowed himgs ds).1,
        (lintReadmeDrain ls allowed himgs ds).2)

/-- A closed README queued ahead of an open extension README. -/
def closedDocC8 : Doc :=
  ⟨1, "markdown", "/a/readme.md", true, "", some ⟨true, false⟩, none, []⟩

/-- An open README of an extension folder, queued second. -/
def openDocC8 : Doc :=
  ⟨2, "markdown", "/b/readme.md", false, "x", some ⟨true, false⟩, none, []⟩

/-- A README document sitting in both queues for the C9 state. -/
def doc9 : Doc := ⟨9, "markdown", "/a/readme.md", false, "", none, none, []⟩

/-! ## Theorems -/

example : uriParse "http://x.com/a.png" = ⟨"http", "x.com", "/a.png"⟩ := by decide

example : uriParse "./img.svg" = ⟨"", "", "./img.svg"⟩ := by decide

example : uriParse "data:image/png;base64,AAA" = ⟨"data", "", "image/png;base64,AAA"⟩ := by decide

/-- Characterization of the kinds emitted by `addDiagnostics`: each of
the four rules contributes its kind exactly when its condition holds. -/
theorem mem_issueKinds (allowed : List String) (src : String) (ctx : Context)
    (info : PackageJsonInfo) (k : MessageKind) :
    k ∈ issueKinds allowed src ctx info ↔
      ((¬schemeLower src = "" ∧ ¬schemeLower src = "https" ∧ ¬schemeLower src = "data")
        ∧ k = MessageKind.httpsRequired)
      ∨ (schemeLower src = "data" ∧ k = MessageKind.dataUrlsNotValid)
      ∨ ((schemeLower src = "" ∧ info.hasHttpsRepository = false)
        ∧ k = MessageKind.relativeUrlRequiresHttpsRepository)
      ∨ ((endsWith (toLowerStr (uriParse src).path) ".svg" = true
          ∧ allowed.contains (toLowerStr (uriParse src).authority) = false)
        ∧ k = MessageKind.svgsNotValid) := by
  unfold issueKinds addDiagnostics
  by_cases h1 : schemeLower src = "" <;>
  by_cases h2 : schemeLower src = "https" <;>
  by_cases h3 : schemeLower src = "data" <;>
  cases h4 : info.hasHttpsRepository <;>
  cases h5 : endsWith (toLowerStr (uriParse src).path) ".svg" <;>
  cases h6 : allowed.contains (toLowerStr (uriParse src).authority) <;>
  simp_all

/-- C2 fails as stated: `data:a.svg` has parsed scheme `data`, yet the
validator emits two issue kinds (`DataUrlForbidden` and
`SvgDisallowed`), not exactly one. -/
theorem c2_counterexample :
    schemeLower "data:a.svg" = "data" ∧
    issueKinds [] "data:a.svg" Context.markdown ⟨true, false⟩ =
      [MessageKind.dataUrlsNotValid, MessageKind.svgsNotValid] := by
  decide

/-- C2 (amended): for every URL whose parsed scheme, lowercased, is
`data`, the validator emits `DataUrlForbidden` and it is the only issue
unless the path's lowercased form ends in `.svg` and the lowercased
authority is not in the allow-list, in which case `SvgDisallowed` is
additionally emitted; `InsecureScheme` and `RelativeRequiresSecureRepo`
are never emitted.  This holds for every `Context` and every
`PackageJsonInfo`. -/
theorem c2_data_url_amended (allowed : List String) (b e : Nat) (src : String)
    (ctx : Context) (info : PackageJsonInfo)
    (h : schemeLower src = "data") :
    addDiagnostics allowed b e src ctx info =
      ⟨b, e, MessageKind.dataUrlsNotValid⟩ ::
        (if endsWith (toLowerStr (uriParse src).path) ".svg"
            && !(allowed.contains (toLowerStr (uriParse src).authority)) then
          [⟨b, e, MessageKind.svgsNotValid⟩] else []) := by
  unfold addDiagnostics
  rw [h]
  simp

/-- Witness for `c2_data_url_amended` at `data:x`. -/
theorem c2_witness :
    addDiagnostics [] 0 6 "data:x" Context.icon ⟨true, true⟩ =
      [⟨0, 6, MessageKind.dataUrlsNotValid⟩] := by
  rw [c2_data_url_amended [] 0 6 "data:x" Context.icon ⟨true, true⟩ (by decide)]
  decide

/-- C3: for every URL whose parsed scheme is empty (a relative
reference), `RelativeRequiresSecureRepo` is emitted exactly when the
manifest info lacks an https repository. -/
theorem c3_relative_requires_secure_repo (allowed : List String) (src : String)
    (ctx : Context) (info : PackageJsonInfo)
    (h : schemeLower src = "") :
    MessageKind.relativeUrlRequiresHttpsRepository ∈ issueKinds allowed src ctx info
      ↔ info.hasHttpsRepository = false := by
  rw [mem_issueKinds]
  simp [h]

/-- Witness for `c3_relative_requires_secure_repo` at `./img.png`. -/
theorem c3_witness :
    MessageKind.relativeUrlRequiresHttpsRepository ∈
      issueKinds [] "./img.png" Context.markdown ⟨true, false⟩ :=
  (c3_relative_requires_secure_repo [] "./img.png" Context.markdown ⟨true, false⟩
    (by decide)).mpr rfl

/-- C4: for every URL whose path, lowercased, ends in `.svg`,
`SvgDisallowed` is emitted exactly when the lowercased authority is not
in the configured allow-list — regardless of the URL's scheme. -/
theorem c4_svg_disallowed (allowed : List String) (src : String)
    (ctx : Context) (info : PackageJsonInfo)
    (h : endsWith (toLowerStr (uriParse src).path) ".svg" = true) :
    MessageKind.svgsNotValid ∈ issueKinds allowed src ctx info
      ↔ allowed.contains (toLowerStr (uriParse src).authority) = false := by
  rw [mem_issueKinds]
  simp [h]

/-- Witness for `c4_svg_disallowed` at an `http` SVG URL from a
non-allow-listed host. -/
theorem c4_witness :
    MessageKind.svgsNotValid ∈
      issueKinds ["allowed.example.com"] "http://evil.example.com/x.svg" Context.badge ⟨true, true⟩ :=
  (c4_svg_disallowed ["allowed.example.com"] "http://evil.example.com/x.svg" Context.badge
    ⟨true, true⟩ (by decide)).mpr (by decide)

example : scanManifest [] manifestC1 = [⟨39, 57, MessageKind.httpsRequired⟩] := by decide

theorem NodeWF.bound {len : Nat} {n : JNode} (h : NodeWF len n) :
    n.offset + n.length ≤ len := by
  cases h; assumption

theorem NodeWF.str_len {len : Nat} {n : JNode} (h : NodeWF len n) :
    n.typ = JType.str → 2 ≤ n.length := by
  cases h; assumption

theorem NodeWF.child {len : Nat} {n c : JNode} (h : NodeWF len n)
    (hc : c ∈ n.children) : NodeWF len c := by
  cases h with
  | mk _ _ _ hch => exact hch c hc

theorem get?_some_lt {α : Type} {l : List α} {n : Nat} {a : α}
    (h : l.get? n = some a) : n < l.length := by
  obtain ⟨hlt, -⟩ := List.get?_eq_some.mp h
  exact hlt

theorem le_skipWs (l : List Char) (i : Nat) : i ≤ skipWs l i :=
  Nat.le_add_right i _

theorem scanString_le {cs : List Char} {cnt : List Char} {n : Nat}
    (h : scanString cs = some (cnt, n)) : 1 ≤ n ∧ n ≤ cs.length := by
  induction cs generalizing cnt n with
  | nil => simp [scanString] at h
  | cons c cs ih =>
    unfold scanString at h
    split at h
    · injection h with h
      cases h
      simp
    · cases hrec : scanString cs with
      | none => rw [hrec] at h; simp at h
      | some p =>
        rw [hrec] at h
        obtain ⟨p1, p2⟩ := p
        simp at h
        obtain ⟨-, h2⟩ := h
        obtain ⟨ih1, ih2⟩ := ih hrec
        constructor
        · omega
        · simp
          omega

theorem parseJString_wf {l : List Char} {i : Nat} {nd : JNode} {j : Nat}
    (h : parseJString l i = some (nd, j)) :
    nd.typ = JType.str ∧ nd.offset = i ∧ nd.children = [] ∧
    2 ≤ nd.length ∧ nd.offset + nd.length = j ∧ i ≤ j ∧ j ≤ l.length := by
  unfold parseJString at h
  split at h
  case isTrue hq =>
    cases hs : scanString (l.drop (i + 1)) with
    | none => rw [hs] at h; simp at h
    | some p =>
      obtain ⟨cnt, n⟩ := p
      rw [hs] at h
      injection h with h
      injection h with h1 h2
      subst h1
      subst h2
      obtain ⟨hn1, hn2⟩ := scanString_le hs
      have hi : i < l.length := get?_some_lt hq
      have hdrop : n ≤ l.length - (i + 1) := by
        simpa [List.length_drop] using hn2
      refine ⟨rfl, rfl, rfl, ?_, ?_, ?_, ?_⟩
      · simp [JNode.length]; omega
      · simp [JNode.offset, JNode.length]; omega
      · omega
      · omega
  case isFalse => simp at h

theorem parseScalar_wf {l : List Char} {i : Nat} {nd : JNode} {j : Nat}
    (h : parseScalar l i = some (nd, j)) :
    nd.typ ≠ JType.str ∧ nd.offset = i ∧ nd.children = [] ∧
    nd.offset + nd.length = j ∧ i ≤ j ∧ j ≤ l.length := by
  unfold parseScalar at h
  split at h
  · simp at h
  case isFalse hne =>
    injection h with h
    injection h with h1 h2
    subst h1
    subst h2
    have hi : i ≤ l.length := by
      by_contra hgt
      have : l.drop i = [] := List.drop_eq_nil_of_le (by omega)
      simp [this] at hne
    have hlen : ((l.drop i).takeWhile isLitChar).length ≤ l.length - i := by
      have h1 := (List.takeWhile_prefix (l := l.drop i) (p := isLitChar)).length_le
      simpa [List.length_drop] using h1
    refine ⟨?_, rfl, rfl, ?_, ?_, ?_⟩
    · simp only [JNode.typ]
      split
      · simp
      · split <;> simp
    · simp [JNode.offset, JNode.length]
    · omega
    · omega

theorem parseJString_nodeWF {l : List Char} {i : Nat} {nd : JNode} {j : Nat}
    (h : parseJString l i = some (nd, j)) : NodeWF l.length nd := by
  obtain ⟨q1, q2, q3, q4, q5, q6, q7⟩ := parseJString_wf h
  refine NodeWF.mk _ (by omega) (fun _ => q4) ?_
  rw [q3]
  intro c hc
  simp at hc

theorem parseScalar_nodeWF {l : List Char} {i : Nat} {nd : JNode} {j : Nat}
    (h : parseScalar l i = some (nd, j)) : NodeWF l.length nd := by
  obtain ⟨q1, q2, q3, q4, q5, q6⟩ := parseScalar_wf h
  refine NodeWF.mk _ (by omega) (fun hs => absurd hs q1) ?_
  rw [q3]
  intro c hc
  simp at hc

theorem parse_wf (fuel : Nat) :
    (∀ l i n j, parseVal fuel l i = some (n, j) →
      i ≤ j ∧ j ≤ l.length ∧ n.offset + n.length = j ∧ NodeWF l.length n) ∧
    (∀ l i ps j, parseMembers fuel l i = some (ps, j) →
      i ≤ j ∧ j ≤ l.length ∧ ∀ p ∈ ps, NodeWF l.length p) ∧
    (∀ l i es j, parseElems fuel l i = some (es, j) →
      i ≤ j ∧ j ≤ l.length ∧ ∀ p ∈ es, NodeWF l.length p) := by
  induction fuel with
  | zero =>
    refine ⟨?_, ?_, ?_⟩ <;> intro l i a j h <;>
      simp [parseVal, parseMembers, parseElems] at h
  | succ fuel ih =>
    obtain ⟨ihv, ihm, ihe⟩ := ih
    refine ⟨?_, ?_, ?_⟩
    · intro l i0 n j h
      have hle : i0 ≤ skipWs l i0 := le_skipWs l i0
      unfold parseVal at h
      split at h
      · exact absurd h (by simp)
      next c hg =>
        have hsk : skipWs l i0 < l.length := get?_some_lt hg
        split at h
        · -- object
          split at h
          next props j2 heq =>
            injection h with h
            injection h with h1 h2
            subst h1; subst h2
            obtain ⟨hm1, hm2, hm3⟩ := ihm l (skipWs l i0 + 1) props j2 heq
            refine ⟨by omega, by omega, ?_, ?_⟩
            · show skipWs l i0 + (j2 - skipWs l i0) = j2
              omega
            · refine NodeWF.mk _ ?_ (by simp [JNode.typ]) ?_
              · show skipWs l i0 + (j2 - skipWs l i0) ≤ l.length
                omega
              · exact hm3
          next heq => exact absurd h (by simp)
        split at h
        · -- array
          split at h
          next elems j2 heq =>
            injection h with h
            injection h with h1 h2
            subst h1; subst h2
            obtain ⟨hm1, hm2, hm3⟩ := ihe l (skipWs l i0 + 1) elems j2 heq
            refine ⟨by omega, by omega, ?_, ?_⟩
            · show skipWs l i0 + (j2 - skipWs l i0) = j2
              omega
            · refine NodeWF.mk _ ?_ (by simp [JNode.typ]) ?_
              · show skipWs l i0 + (j2 - skipWs l i0) ≤ l.length
                omega
              · exact hm3
          next heq => exact absurd h (by simp)
        split at h
        · -- string
          obtain ⟨q1, q2, q3, q4, q5, q6, q7⟩ := parseJString_wf h
          exact ⟨by omega, q7, q5, parseJString_nodeWF h⟩
        · -- scalar
          obtain ⟨q1, q2, q3, q4, q5, q6⟩ := parseScalar_wf h
          exact ⟨by omega, q6, q4, parseScalar_nodeWF h⟩
    · intro l i ps j h
      have hle : i ≤ skipWs l i := le_skipWs l i
      unfold parseMembers at h
      split at h
      next hbr =>
        injection h with h
        injection h with h1 h2
        subst h1; subst h2
        have hsk : skipWs l i < l.length := get?_some_lt hbr
        refine ⟨by omega, by omega, ?_⟩
        intro p hp
        exact absurd hp (List.not_mem_nil p)
      next hbr =>
        split at h
        next hkey => exact absurd h (by simp)
        next key k0 hkey =>
          obtain ⟨k1, k2, k3, k4, k5, k6, k7⟩ := parseJString_wf hkey
          have hkeyWF : NodeWF l.length key := parseJString_nodeWF hkey
          have hk0 : k0 ≤ skipWs l k0 := le_skipWs l k0
          split at h
          next hcolon =>
            split at h
            next hval => exact absurd h (by simp)
            next v m hval =>
              obtain ⟨v1, v2, v3, v4⟩ := ihv l (skipWs l k0 + 1) v m hval
              have hm0 : m ≤ skipWs l m := le_skipWs l m
              have hpropWF : NodeWF l.length
                  ⟨JType.prop, key.offset, m - key.offset, "", [key, v]⟩ := by
                refine NodeWF.mk _ ?_ (by simp [JNode.typ]) ?_
                · show key.offset + (m - key.offset) ≤ l.length
                  omega
                · show ∀ c ∈ [key, v], NodeWF l.length c
                  intro c hc
                  rcases List.mem_cons.mp hc with rfl | hc
                  · exact hkeyWF
                  · rcases List.mem_singleton.mp hc with rfl
                    exact v4
              split at h
              next hcomma =>
                split at h
                next props j2 hrec =>
                  injection h with h
                  injection h with h1 h2
                  subst h1; subst h2
                  obtain ⟨r1, r2, r3⟩ := ihm l (skipWs l m + 1) props j2 hrec
                  refine ⟨by omega, r2, ?_⟩
                  intro p hp
                  rcases List.mem_cons.mp hp with rfl | hp
                  · exact hpropWF
                  · exact r3 p hp
                next hrec => exact absurd h (by simp)
              next hcomma =>
                split at h
                next hcl =>
                  injection h with h
                  injection h with h1 h2
                  subst h1; subst h2
                  have hsk2 : skipWs l m < l.length := get?_some_lt hcl
                  refine ⟨by omega, by omega, ?_⟩
                  intro p hp
                  rcases List.mem_singleton.mp hp with rfl
                  exact hpropWF
                next hcl => exact absurd h (by simp)
          next hcolon => exact absurd h (by simp)
    · intro l i es j h
      have hle : i ≤ skipWs l i := le_skipWs l i
      unfold parseElems at h
      split at h
      next hbr =>
        injection h with h
        injection h with h1 h2
        subst h1; subst h2
        have hsk : skipWs l i < l.length := get?_some_lt hbr
        refine ⟨by omega, by omega, ?_⟩
        intro p hp
        exact absurd hp (List.not_mem_nil p)
      next hbr =>
        split at h
        next hval => exact absurd h (by simp)
        next v m hval =>
          obtain ⟨v1, v2, v3, v4⟩ := ihv l i v m hval
          have hm0 : m ≤ skipWs l m := le_skipWs l m
          split at h
          next hcomma =>
            split at h
            next elems j2 hrec =>
              injection h with h
              injection h with h1 h2
              subst h1; subst h2
              obtain ⟨r1, r2, r3⟩ := ihe l (skipWs l m + 1) elems j2 hrec
              refine ⟨by omega, r2, ?_⟩
              intro p hp
              rcases List.mem_cons.mp hp with rfl | hp
              · exact v4
              · exact r3 p hp
            next hrec => exact absurd h (by simp)
          next hcomma =>
            split at h
            next hcl =>
              injection h with h
              injection h with h1 h2
              subst h1; subst h2
              have hsk2 : skipWs l m < l.length := get?_some_lt hcl
              refine ⟨by omega, by omega, ?_⟩
              intro p hp
              rcases List.mem_singleton.mp hp with rfl
              exact v4
            next hcl => exact absurd h (by simp)

theorem parseTree_wf {text : String} {t : JNode} (h : parseTree text = some t) :
    NodeWF text.length t := by
  unfold parseTree at h
  split at h
  next n j heq =>
    split at h
    · injection h with h
      subst h
      exact ((parse_wf (text.length + 1)).1 text.data 0 _ j heq).2.2.2
    · exact absurd h (by simp)
  next => exact absurd h (by simp)

theorem findNodeAtLocation_wf {len : Nat} :
    ∀ (path : List String) {n m : JNode},
      NodeWF len n → findNodeAtLocation n path = some m → NodeWF len m := by
  intro path
  induction path with
  | nil =>
    intro n m hw h
    unfold findNodeAtLocation at h
    injection h with h
    subst h
    exact hw
  | cons seg rest ih =>
    intro n m hw h
    unfold findNodeAtLocation at h
    split at h
    · split at h
      next p hp =>
        split at h
        next v hv =>
          have hpmem : p ∈ n.children := List.mem_of_find?_eq_some hp
          have hvmem : v ∈ p.children := List.get?_mem hv
          exact ih ((hw.child hpmem).child hvmem) h
        next => exact absurd h (by simp)
      next => exact absurd h (by simp)
    · exact absurd h (by simp)

theorem manifestReportedNodes_wf {text : String} :
    ∀ n ∈ manifestReportedNodes text, NodeWF text.length n ∧ n.typ = JType.str := by
  intro n hn
  unfold manifestReportedNodes at hn
  split at hn
  next => exact absurd hn (by simp)
  next t hpt =>
    have htw : NodeWF text.length t := parseTree_wf hpt
    split at hn
    case isTrue hext =>
      rw [List.mem_append] at hn
      rcases hn with hn | hn
      · split at hn
        next ic hic =>
          split at hn
          case isTrue hstr =>
            rcases List.mem_singleton.mp hn with rfl
            exact ⟨findNodeAtLocation_wf ["icon"] htw hic, hstr⟩
          case isFalse => exact absurd hn (by simp)
        next => exact absurd hn (by simp)
      · split at hn
        next bs hbs =>
          split at hn
          case isTrue harr =>
            obtain ⟨hn', htyp⟩ := List.mem_filter.mp hn
            obtain ⟨child, hchild, hfind⟩ := List.mem_filterMap.mp hn'
            have hbw : NodeWF text.length bs := findNodeAtLocation_wf ["badges"] htw hbs
            exact ⟨findNodeAtLocation_wf ["url"] (hbw.child hchild) hfind,
              by simpa using htyp⟩
          case isFalse => exact absurd hn (by simp)
        next => exact absurd hn (by simp)
    case isFalse => exact absurd hn (by simp)

theorem addDiagnostics_range (allowed : List String) (b e : Nat) (src : String)
    (ctx : Context) (info : PackageJsonInfo) :
    ∀ issue ∈ addDiagnostics allowed b e src ctx info,
      issue.rangeStart = b ∧ issue.rangeEnd = e := by
  intro issue h
  unfold addDiagnostics at h
  simp only [List.mem_append] at h
  rcases h with ((h | h) | h) | h <;> (split at h <;> simp_all)

theorem scanManifest_mem (allowed : List String) (text : String) :
    ∀ issue ∈ scanManifest allowed text,
      ∃ n ∈ manifestReportedNodes text,
        issue.rangeStart = n.offset + 1 ∧ issue.rangeEnd = n.offset + n.length - 1 := by
  intro issue h
  unfold scanManifest at h
  cases hpt : parseTree text with
  | none =>
    rw [hpt] at h
    simp [readPackageJsonInfo] at h
  | some t =>
    rw [hpt] at h
    by_cases hext : (readPackageJsonInfo (some t)).isExtension
    case neg => rw [if_neg hext] at h; simp at h
    case pos =>
      rw [if_pos hext] at h
      unfold manifestReportedNodes
      simp only [hpt]
      rw [if_pos hext]
      simp only [Option.some_bind] at h
      rw [List.mem_append] at h
      rcases h with h | h
      · cases hic : findNodeAtLocation t ["icon"] with
        | none => simp only [hic] at h; simp at h
        | some ic =>
          simp only [hic] at h
          split at h
          case isTrue hstr =>
            obtain ⟨hrs, hre⟩ := addDiagnostics_range _ _ _ _ _ _ issue h
            refine ⟨ic, ?_, hrs, hre⟩
            rw [List.mem_append]
            left
            show ic ∈ (if ic.typ = JType.str then [ic] else [])
            rw [if_pos hstr]
            exact List.mem_singleton.mpr rfl
          case isFalse => simp at h
      · cases hbs : findNodeAtLocation t ["badges"] with
        | none => simp only [hbs] at h; simp at h
        | some bs =>
          simp only [hbs] at h
          split at h
          case isTrue harr =>
            rw [List.mem_flatMap] at h
            obtain ⟨url, hurl, hmem⟩ := h
            obtain ⟨hrs, hre⟩ := addDiagnostics_range _ _ _ _ _ _ issue hmem
            refine ⟨url, ?_, hrs, hre⟩
            rw [List.mem_append]
            right
            show url ∈ (if bs.typ = JType.arr then
              (bs.children.filterMap (fun child => findNodeAtLocation child ["url"])).filter
                (fun u => u.typ == JType.str) else [])
            rw [if_pos harr]
            exact hurl
          case isFalse => simp at h

/-- C1: every issue reported for a manifest comes from a reported string
node (the `icon` node or a `badges[].url` node) and its range is
`[offset + 1, offset + length - 1)`, which excludes the node's quotes;
and scanning `{"engines":{"vscode":"^1.0.0"},"icon":"http://x.com/a.png"}`
yields exactly one issue (`InsecureScheme`, i.e. `httpsRequired`) whose
range `[39, 57)` covers exactly the substring `http://x.com/a.png`. -/
theorem c1_manifest_ranges :
    (∀ allowed text issue, issue ∈ scanManifest allowed text →
      ∃ n ∈ manifestReportedNodes text, n.typ = JType.str ∧
        issue.rangeStart = n.offset + 1 ∧ issue.rangeEnd = n.offset + n.length - 1) ∧
    scanManifest [] manifestC1 = [⟨39, 57, MessageKind.httpsRequired⟩] ∧
    (manifestC1.data.drop 39).take (57 - 39) = "http://x.com/a.png".data := by
  refine ⟨?_, by decide, by decide⟩
  intro allowed text issue h
  obtain ⟨n, hn, hrs, hre⟩ := scanManifest_mem allowed text issue h
  exact ⟨n, hn, (manifestReportedNodes_wf n hn).2, hrs, hre⟩

/-- Witness for `c1_manifest_ranges` at the concrete manifest and its
single issue. -/
theorem c1_witness :
    ∃ n ∈ manifestReportedNodes manifestC1, n.typ = JType.str ∧
      (⟨39, 57, MessageKind.httpsRequired⟩ : Issue).rangeStart = n.offset + 1 ∧
      (⟨39, 57, MessageKind.httpsRequired⟩ : Issue).rangeEnd = n.offset + n.length - 1 :=
  c1_manifest_ranges.1 [] manifestC1 ⟨39, 57, MessageKind.httpsRequired⟩ (by decide)

theorem indexOfFrom_bound {l pat : List Char} {start i : Nat}
    (h : indexOfFrom l pat start = some i) :
    start ≤ i ∧ i + pat.length ≤ l.length := by
  unfold indexOfFrom at h
  have hmem : i ∈ List.range (l.length + 1) := List.mem_of_find?_eq_some h
  have hp := List.find?_some h
  rw [List.mem_range] at hmem
  simp only [Bool.and_eq_true, decide_eq_true_eq] at hp
  obtain ⟨h1, h2⟩ := hp
  have h3 : pat.length ≤ (l.drop i).length :=
    (List.isPrefixOf_iff_prefix.mp h2).length_le
  rw [List.length_drop] at h3
  exact ⟨h1, by omega⟩

theorem string_length_data (s : String) : s.data.length = s.length := rfl

/-- C5: every issue produced by a manifest scan lies within the scanned
manifest text, and every issue produced by a prose scan lies within the
scanned document text: `rangeStart ≤ rangeEnd ≤ length` (ranges are
naturals, hence non-negative). -/
theorem c5_issue_ranges_in_bounds :
    (∀ allowed text issue, issue ∈ scanManifest allowed text →
      issue.rangeStart ≤ issue.rangeEnd ∧ issue.rangeEnd ≤ text.length) ∧
    (∀ ls allowed himgs d issue, issue ∈ lintReadmeScanDoc ls allowed himgs d →
      issue.rangeStart ≤ issue.rangeEnd ∧ issue.rangeEnd ≤ d.text.length) := by
  constructor
  · intro allowed text issue h
    obtain ⟨n, hn, hrs, hre⟩ := scanManifest_mem allowed text issue h
    obtain ⟨hw, hstr⟩ := manifestReportedNodes_wf n hn
    have hb := hw.bound
    have hl := hw.str_len hstr
    constructor <;> omega
  · intro ls allowed himgs d issue h
    unfold lintReadmeScanDoc at h
    split at h
    · exact absurd h (by simp)
    · rw [List.mem_append] at h
      rcases h with h | h
      · rw [List.mem_flatMap] at h
        obtain ⟨inp, hinp, h⟩ := h
        split at h
        next b hio =>
          split at h
          · obtain ⟨hrs, hre⟩ := addDiagnostics_range _ _ _ _ _ _ issue h
            obtain ⟨hb1, hb2⟩ := indexOfFrom_bound hio
            have e1 : (inp.token.src.getD "").data.length
                = (inp.token.src.getD "").length := rfl
            have e2 : d.text.data.length = d.text.length := rfl
            constructor <;> omega
          · exact absurd h (by simp)
        next hio => exact absurd h (by simp)
      · rw [List.mem_flatMap] at h
        obtain ⟨tnp, htnp, h⟩ := h
        rw [List.mem_flatMap] at h
        obtain ⟨pr, hpr, h⟩ := h
        split at h
        · split at h
          next b hio =>
            split at h
            · obtain ⟨hrs, hre⟩ := addDiagnostics_range _ _ _ _ _ _ issue h
              obtain ⟨hb1, hb2⟩ := indexOfFrom_bound hio
              have e1 : pr.1.data.length = pr.1.length := rfl
              have e2 : d.text.data.length = d.text.length := rfl
              constructor <;> omega
            · exact absurd h (by simp)
          next hio => exact absurd h (by simp)
        · exact absurd h (by simp)

/-- Witness for `c5_issue_ranges_in_bounds` at the concrete manifest
and its single issue. -/
theorem c5_witness :
    (⟨39, 57, MessageKind.httpsRequired⟩ : Issue).rangeStart ≤
        (⟨39, 57, MessageKind.httpsRequired⟩ : Issue).rangeEnd ∧
      (⟨39, 57, MessageKind.httpsRequired⟩ : Issue).rangeEnd ≤ manifestC1.length :=
  c5_issue_ranges_in_bounds.1 [] manifestC1 ⟨39, 57, MessageKind.httpsRequired⟩ (by decide)

/-- C6: in the position mapper, a token that carries no line range and
whose derived content is empty, is not found at or after the current
cursor, or is found only at an occurrence whose end exceeds the
inherited bound, is assigned the zero-width span `[b, b)` at the
current cursor `b`, and the cursor does not advance: the remaining
tokens are processed with the same cursor. -/
theorem c6_zero_width_fallback (ls : Nat → Nat) (text : List Char) (t : Token)
    (ts : List Token) (b e : Nat)
    (hmap : t.lineMap = none)
    (h : derivedContent t = ""
      ∨ indexOfFrom text (derivedContent t).data b = none
      ∨ ∃ i, indexOfFrom text (derivedContent t).data b = some i
          ∧ e < i + (derivedContent t).length) :
    levelSpans ls text (t :: ts) b e = ⟨t, b, b⟩ :: levelSpans ls text ts b e := by
  have hcs : contentSpan text t b e = none := by
    unfold contentSpan
    split
    case isTrue hne =>
      rcases h with h | h | ⟨i, hi, hgt⟩
      · simp [h] at hne
      · rw [h]
      · rw [hi]
        show (if i + (derivedContent t).length ≤ e then
          some (i, i + (derivedContent t).length) else none) = none
        rw [if_neg (by omega)]
    case isFalse => rfl
  simp only [levelSpans, hmap, hcs]

/-- Witness for `c6_zero_width_fallback`: a text token whose content
does not occur in the text collapses to `[0, 0)`. -/
theorem c6_witness :
    levelSpans (fun n => n) "abc".data [Token.mk "text" "zzz" none none []] 0 3 =
      [⟨Token.mk "text" "zzz" none none [], 0, 0⟩] := by
  rw [c6_zero_width_fallback (fun n => n) "abc".data
    (Token.mk "text" "zzz" none none []) [] 0 3 rfl (Or.inr (Or.inl (by decide)))]
  rfl

/-- C7: a prose document whose folder has no cached info and whose
manifest file is missing, fails to parse, or lacks a string-typed
`engines.vscode` node is treated as a non-extension folder: the prose
scan publishes the empty issue list, suppressing all image checks (and
the scan is a total function — the load-failure path is an ordinary
value, never an error surfaced to the user). -/
theorem c7_missing_manifest (ls : Nat → Nat) (allowed : List String)
    (himgs : String → List (String × Nat)) (d : Doc)
    (hcache : d.cache = none)
    (h : d.manifest = none
      ∨ d.manifest.bind (fun mt => parseTree mt) = none
      ∨ ∀ t eng, d.manifest.bind (fun mt => parseTree mt) = some t →
          findNodeAtLocation t ["engines", "vscode"] = some eng → eng.typ ≠ JType.str) :
    (readmeInfo d).isExtension = false ∧ lintReadmeScanDoc ls allowed himgs d = [] := by
  have hinfo : (readmeInfo d).isExtension = false := by
    simp only [readmeInfo, hcache]
    cases hT : d.manifest.bind (fun mtext => parseTree mtext) with
    | none => simp [readPackageJsonInfo, hT]
    | some t =>
      rcases h with h | h | h
      · rw [h] at hT; simp at hT
      · rw [h] at hT; simp at hT
      · simp only [readPackageJsonInfo, hT, Option.some_bind]
        cases hE : findNodeAtLocation t ["engines", "vscode"] with
        | none => simp
        | some eng => simp [h t eng hT hE]
  refine ⟨hinfo, ?_⟩
  unfold lintReadmeScanDoc
  rw [if_pos hinfo]

/-- Witness for `c7_missing_manifest`: a README in a folder with no
manifest file scans to zero issues. -/
theorem c7_witness :
    (readmeInfo ⟨1, "markdown", "/a/readme.md", false, "![alt](./img.svg)", none, none,
        [Token.mk "image" "alt" (some "./img.svg") none []]⟩).isExtension = false ∧
    lintReadmeScanDoc (fun _ => 0) [] (fun _ => [])
      ⟨1, "markdown", "/a/readme.md", false, "![alt](./img.svg)", none, none,
        [Token.mk "image" "alt" (some "./img.svg") none []]⟩ = [] :=
  c7_missing_manifest (fun _ => 0) [] (fun _ => []) _ rfl (Or.inl rfl)

/-- C8 names a real divergence in the code: when the README drain hits
a closed document, the `return` at line 128 aborts the whole loop
instead of skipping one document, so the open document queued behind it
is not processed and no issues are published for it — it merely stays
queued.  Alone, the same open document is drained and published, and
the manifest drain does skip closed documents per-document. -/
theorem c8_closed_doc_aborts_readme_drain :
    lintReadmeDrain (fun n => n) [] (fun _ => []) [closedDocC8, openDocC8]
        = ([], [openDocC8]) ∧
    lintReadmeDrain (fun n => n) [] (fun _ => []) [openDocC8]
        = ([(2, [])], []) ∧
    lintPackageJsonDrain []
        [⟨3, "json", "/a/package.json", true, "", none, none, []⟩,
         ⟨4, "json", "/b/package.json", false, "", none, none, []⟩]
        = [(4, [])] := by
  refine ⟨rfl, ?_, ?_⟩ <;> rfl

/-- C9 fails as stated: closing a document runs `clear`, which deletes
its published issues and removes it from the manifest queue only — the
README pending queue still contains it afterwards. -/
theorem c9_counterexample :
    (clear ⟨[doc9], [doc9], [(9, [⟨0, 0, MessageKind.httpsRequired⟩])]⟩ doc9).readmeQ
      = [doc9] := rfl

/-- C9 (amended): `clear` removes the closed document from the manifest
pending set and clears its published issues, but leaves the README
pending set untouched (a closed document queued there is only dropped,
without a scan, when a later drain reaches it). -/
theorem c9_clear_amended (s : LinterState) (d : Doc) :
    ((clear s d).packageJsonQ.all (fun x => x.id != d.id)) = true ∧
    ((clear s d).published.all (fun p => p.1 != d.id)) = true ∧
    (clear s d).readmeQ = s.readmeQ := by
  refine ⟨?_, ?_, rfl⟩
  · rw [List.all_eq_true]
    intro x hx
    exact (List.mem_filter.mp hx).2
  · rw [List.all_eq_true]
    intro p hp
    exact (List.mem_filter.mp hp).2

/-- C10: open/change events queue only json `…/package.json` documents
(case-sensitive path) and markdown documents whose lowercased path ends
in `/readme.md` or `/changelog.md`; any other document leaves the state
unchanged, and the drains publish issues only for documents that were
in a queue, so no issues are ever published for it. -/
theorem c10_queue_frame (s : LinterState) (d : Doc)
    (h1 : ¬(d.languageId = "json" ∧ endsWith d.path "/package.json" = true))
    (h2 : ¬(d.languageId = "markdown"
        ∧ (endsWith (toLowerStr d.path) "/readme.md"
            || endsWith (toLowerStr d.path) "/changelog.md") = true)) :
    queue s d = s ∧
    (∀ allowed docs (pub : Nat × List Issue), pub ∈ lintPackageJsonDrain allowed docs →
      ∃ x ∈ docs, x.id = pub.1) ∧
    (∀ ls allowed himgs docs (pub : Nat × List Issue),
      pub ∈ (lintReadmeDrain ls allowed himgs docs).1 → ∃ x ∈ docs, x.id = pub.1) := by
  refine ⟨?_, ?_, ?_⟩
  · have hb1 : ¬((d.languageId == "json" && endsWith d.path "/package.json") = true) := by
      simp only [Bool.and_eq_true, beq_iff_eq]
      intro hc
      exact h1 hc
    have hb2 : ¬((d.languageId == "markdown"
        && (endsWith (toLowerStr d.path) "/readme.md"
            || endsWith (toLowerStr d.path) "/changelog.md")) = true) := by
      simp only [Bool.and_eq_true, beq_iff_eq]
      intro hc
      exact h2 hc
    unfold queue queueReadme
    rw [if_neg hb1, if_neg hb2]
  · intro allowed docs
    induction docs with
    | nil => intro pub hp; simp [lintPackageJsonDrain] at hp
    | cons d0 ds ih =>
      intro pub hp
      unfold lintPackageJsonDrain at hp
      split at hp
      · obtain ⟨x, hx, he⟩ := ih pub hp
        exact ⟨x, List.mem_cons_of_mem _ hx, he⟩
      · rcases List.mem_cons.mp hp with rfl | hp
        · exact ⟨d0, List.mem_cons_self _ _, rfl⟩
        · obtain ⟨x, hx, he⟩ := ih pub hp
          exact ⟨x, List.mem_cons_of_mem _ hx, he⟩
  · intro ls allowed himgs docs
    induction docs with
    | nil => intro pub hp; simp [lintReadmeDrain] at hp
    | cons d0 ds ih =>
      intro pub hp
      unfold lintReadmeDrain at hp
      split at hp
      · simp at hp
      · split at hp
        · rcases List.mem_singleton.mp hp with rfl
          exact ⟨d0, List.mem_cons_self _ _, rfl⟩
        · rcases List.mem_cons.mp hp with rfl | hp
          · exact ⟨d0, List.mem_cons_self _ _, rfl⟩
          · obtain ⟨x, hx, he⟩ := ih pub hp
            exact ⟨x, List.mem_cons_of_mem _ hx, he⟩

/-- Witness for `c10_queue_frame`: a TypeScript document is not queued
by an open/change event. -/
theorem c10_witness :
    queue ⟨[], [], []⟩ ⟨7, "typescript", "/a/main.ts", false, "", none, none, []⟩
      = ⟨[], [], []⟩ :=
  (c10_queue_frame ⟨[], [], []⟩ ⟨7, "typescript", "/a/main.ts", false, "", none, none, []⟩
    (by decide) (by decide)).1
